import Mathlib

/-!
Verification of the auditlog package: a shallow embedding in Lean 4 of the
event model, the canonical digest, the single-writer logger engine, the chain
verifier, the certification verifier and the database table setup, together
with proofs of the specified properties.

Modelling conventions.

Byte strings are `List Nat` (each entry standing for one byte). Go machine
integers are embedded as `Nat` (for `uint64`) and `Int` (for `int64`) with
explicit reduction modulo `2 ^ 64` where the code truncates.

The external cryptographic libraries (`crypto/sha256`, `crypto/ecdsa`,
`encoding/asn1`) are not code of this repository; they are modelled as ideal
primitives: `sha256` is an ideal collision-free hash (modelled as the identity
on byte strings), ECDSA signing is deterministic and verification succeeds
exactly on the pair produced by signing the same digest under the matching
key, and the ASN.1 layer is an injective encoding of the `(r, s)` pair that
rejects trailing data. Everything the repository itself computes (field
ordering of the digest, chain linkage, counter bookkeeping, the range and
serial logic of certification, table setup) is translated directly from the
source files.
-/

namespace Auditlog

/-- One byte of a big-endian two's-complement 64-bit encoding: Go's
`binary.Write(h, binary.BigEndian, int64(v))`. The integer is first reduced
modulo `2 ^ 64` (the bit pattern of the `int64`), then split into 8 bytes,
most significant first. -/
def int64BE (i : Int) : List Nat :=
  let n : Nat := (i % (2 ^ 64 : Int)).toNat
  [n / 2 ^ 56 % 256, n / 2 ^ 48 % 256, n / 2 ^ 40 % 256, n / 2 ^ 32 % 256,
   n / 2 ^ 24 % 256, n / 2 ^ 16 % 256, n / 2 ^ 8 % 256, n % 256]

/-- Binary digits of a natural number, least significant first, no trailing
zeros; the first argument is fuel making the recursion structural. -/
def natBitsAux : Nat → Nat → List Nat
  | _, 0 => []
  | 0, _ + 1 => []
  | fuel + 1, n + 1 => (n + 1) % 2 :: natBitsAux fuel ((n + 1) / 2)

/-- Binary digits of a natural number, least significant first. -/
def natBits (n : Nat) : List Nat := natBitsAux n n

/-- Injective digit stream of a byte string: each byte contributes its binary
digits followed by a separator digit `2`. -/
def byteDigits (bs : List Nat) : List Nat :=
  (bs.map (fun b => natBits b ++ [2])).flatten

/-- Injective embedding of byte strings into the naturals, by reading the
separator-delimited digit stream in base 3. Used by the ideal ECDSA model to
bind a signature to the digest it signs. -/
def encodeBytes (bs : List Nat) : Nat := Nat.ofDigits 3 (byteDigits bs)

/-- Injective embedding of the integers into the naturals. -/
def intEnc : Int → Nat
  | Int.ofNat n => 2 * n
  | Int.negSucc n => 2 * n + 1

/-- Inverse of `intEnc`. -/
def intDec (n : Nat) : Int :=
  if n % 2 = 0 then Int.ofNat (n / 2) else Int.negSucc (n / 2)

/-- Ideal model of the external SHA-256: a collision-free map on byte
strings, taken to be the identity. -/
def sha256 (msg : List Nat) : List Nat := msg

/-- Ideal model of `ecdsa.Sign`: a deterministic signature deriving the pair
`(r, s)` from the digest and the private key. -/
def ecdsaSign (sk : Nat) (digest : List Nat) : Int × Int :=
  (Int.ofNat (encodeBytes digest), Int.ofNat sk)

/-- The public half of a private key in the ideal model. -/
def pubOf (sk : Nat) : Nat := sk

/-- Ideal model of `ecdsa.Verify`: accepts exactly the pair produced by
signing the same digest under the key matching `pk`. -/
def ecdsaVerify (pk : Nat) (digest : List Nat) (r s : Int) : Bool :=
  r == Int.ofNat (encodeBytes digest) && s == Int.ofNat pk

/-- Ideal model of `asn1.Marshal` on `ECDSASignature{R, S}`: an injective
byte encoding of the two integers. Marshalled signatures are never empty. -/
def asn1Marshal (r s : Int) : List Nat := [intEnc r, intEnc s]

/-- Ideal model of `asn1.Unmarshal` into `ECDSASignature`, rejecting inputs
with trailing or missing data (the code checks `len(remaining) > 0`). -/
def asn1Unmarshal : List Nat → Option (Int × Int)
  | [a, b] => some (intDec a, intDec b)
  | _ => none

/-- An `Attribute` is a named value attached to an event (`event.go`). -/
structure Attribute where
  name : List Nat
  value : List Nat
deriving DecidableEq

/-- An `Event` as in the final `auditlog` event model: serial, `when` and
`received` timestamps, level, actor, event description, ordered attributes
and the ECDSA signature bytes. -/
structure Event where
  serial : Nat
  when : Int
  received : Int
  level : List Nat
  actor : List Nat
  event : List Nat
  attributes : List Attribute
  signature : List Nat
deriving DecidableEq

/-- A default event (all fields zero or empty). -/
def defaultEvent : Event := ⟨0, 0, 0, [], [], [], [], []⟩

/-- The byte sequence the source method `Event.digest` feeds to SHA-256:
serial, when and received as signed 64-bit big-endian integers, then the
level, actor and event bytes, then each attribute's name and value in
declared order, then the signature field (skipped when its length is 0,
mirroring the `len(ev.Signature) != 0` guard). -/
def Event.digestInput (ev : Event) : List Nat :=
  int64BE (Int.ofNat ev.serial) ++ int64BE ev.when ++ int64BE ev.received ++
  ev.level ++ ev.actor ++ ev.event ++
  (ev.attributes.map (fun a => a.name ++ a.value)).flatten ++
  (if ev.signature.length ≠ 0 then ev.signature else [])

/-- The digest of an event: SHA-256 of its canonical byte sequence. -/
def Event.digest (ev : Event) : List Nat := sha256 ev.digestInput

/-- The canonical byte encoding exactly as the specification words it:
items 1-7 followed by the raw signature bytes (an empty slice contributing
no bytes). Stated from the spec, to be compared with `Event.digestInput`. -/
def specCanonicalBytes (ev : Event) : List Nat :=
  int64BE (Int.ofNat ev.serial) ++ int64BE ev.when ++ int64BE ev.received ++
  ev.level ++ ev.actor ++ ev.event ++
  (ev.attributes.map (fun a => a.name ++ a.value)).flatten ++
  ev.signature

/-- `Event.Verify` from the source: recompute the digest with the signature
field temporarily replaced by the previous signature, ASN.1-decode the stored
signature (rejecting trailing bytes), then run the curve verification. -/
def Event.verify (ev : Event) (pk : Nat) (prev : List Nat) : Bool :=
  let digest := Event.digest { ev with signature := prev }
  match asn1Unmarshal ev.signature with
  | none => false
  | some (r, s) => ecdsaVerify pk digest r s

/-- An `ErrorEvent` records a failed attempt to sign and store an event; it
carries the failure time, a message naming the failure stage, and the
skeletal event (empty signature, tentatively reserved serial). -/
structure ErrorEvent where
  when : Int
  message : List Nat
  event : Event
deriving DecidableEq

/-- The UTF-8 bytes of the message tag `"signature: "`. -/
def sigFailTag : List Nat := [115, 105, 103, 110, 97, 116, 117, 114, 101, 58, 32]

/-- The UTF-8 bytes of the message tag `"marshal signature: "`. -/
def marshalSigFailTag : List Nat := [109, 97, 114, 115, 104, 97, 108, 32] ++ sigFailTag

/-- Observable actions of one worker step, in the order they take effect:
committing an event, recording an error event, and releasing the completion
signal of a synchronous waiter (Go: `close(ev.wait)`). -/
inductive Action where
  | commit (ev : Event)
  | recordError (errEv : ErrorEvent)
  | release
deriving DecidableEq

/-- The mutable state of the logger engine together with the durable store:
the serial counter, the in-memory tail signature, the committed events and
the recorded error events (both in insertion order), and whether the store
handle is present (`l.db != nil`). -/
structure LoggerState where
  counter : Nat
  lastSignature : List Nat
  events : List Event
  errors : List ErrorEvent
  dbOpen : Bool
deriving DecidableEq

/-- The state of a freshly constructed engine over an empty store. -/
def initState : LoggerState := ⟨0, [], [], [], true⟩

/-- One worker step, translated from `Logger.processEvent`. `signOk` and
`marshalOk` inject the possible failures of the external `ecdsa.Sign` and
`asn1.Marshal` calls (`reason` standing for the error text); `recv` is the
time stamped into `received`; `hasWait` tells whether the draft carries a
completion channel; `errWhen` is the time stamped into an error event.

The translation keeps the source's order of effects: when the store handle
is absent the function returns at once (before the `defer close(ev.wait)` is
registered); otherwise the draft is stamped, the serial reserved
(`l.counter++`), the previous tail signature placed in the signature field
and the digest signed. A sign or marshal failure stores an error event with
the staged message and releases the serial (`l.counter--`, collapsing to an
unchanged counter); success marshals the signature, commits the event and
advances the tail signature. The completion signal is released on return.
Store transaction failures make the source panic (the process terminates)
and are not modelled. -/
def processEvent (sk : Nat) (signOk marshalOk : Bool) (recv errWhen : Int)
    (draft : Event) (hasWait : Bool) (reason : List Nat)
    (st : LoggerState) : LoggerState × List Action :=
  if st.dbOpen = false then (st, [])
  else
    let ev1 : Event := { draft with
                          received := recv
                          serial := st.counter
                          signature := st.lastSignature }
    let digest := Event.digest ev1
    let ev2 : Event := { ev1 with signature := [] }
    let finish : List Action := if hasWait then [Action.release] else []
    if signOk = false then
      let errEv : ErrorEvent := ⟨errWhen, sigFailTag ++ reason, ev2⟩
      ({ st with errors := st.errors ++ [errEv] }, Action.recordError errEv :: finish)
    else
      let rs := ecdsaSign sk digest
      if marshalOk = false then
        let errEv : ErrorEvent := ⟨errWhen, marshalSigFailTag ++ reason, ev2⟩
        ({ st with errors := st.errors ++ [errEv] }, Action.recordError errEv :: finish)
      else
        let sigBytes := asn1Marshal rs.1 rs.2
        let ev3 : Event := { ev2 with signature := sigBytes }
        ({ st with
            counter := st.counter + 1
            lastSignature := sigBytes
            events := st.events ++ [ev3] },
         Action.commit ev3 :: finish)

/-- States reachable from a fresh engine by worker steps and by `Stop`
(which closes the store handle). -/
inductive Reachable (sk : Nat) : LoggerState → Prop
  | init : Reachable sk initState
  | step (signOk marshalOk : Bool) (recv errWhen : Int) (draft : Event)
      (hasWait : Bool) (reason : List Nat) {st : LoggerState} :
      Reachable sk st →
      Reachable sk (processEvent sk signOk marshalOk recv errWhen draft hasWait reason st).1
  | stop {st : LoggerState} : Reachable sk st →
      Reachable sk { st with dbOpen := false }

/-- Chain verification of a list of events against a running previous
signature: each event must verify against the signature of its predecessor
(the given `prev` for the first). -/
def chainOk (pk : Nat) : List Nat → List Event → Bool
  | _, [] => true
  | prev, e :: rest => e.verify pk prev && chainOk pk e.signature rest

/-- The signature of the last event of a list, or `prev` when empty. -/
def tailSigFrom (prev : List Nat) (es : List Event) : List Nat :=
  match es.getLast? with
  | none => prev
  | some e => e.signature

/-- `getSignature` from `db.go`: the signature column of the event row with
the given serial, `none` when no such row exists (`sql.ErrNoRows`). -/
def getSignature (store : List Event) (serial : Nat) : Option (List Nat) :=
  (store.find? (fun e => e.serial == serial)).map Event.signature

/-- `Logger.verifyEvent` from `db.go`: fetch the previous signature (left
empty for serial 0), load the event, verify. A missing row or failed
signature check fails the step. -/
def verifyEvent (pk : Nat) (store : List Event) (serial : Nat) : Bool :=
  match (if serial > 0 then getSignature store (serial - 1) else some []) with
  | none => false
  | some prev =>
    match store.find? (fun e => e.serial == serial) with
    | none => false
    | some ev => ev.verify pk prev

/-- `Logger.verifyAuditChain` from `db.go`: verify events `0 .. counter-1`
in order (`none` on the offending serial), then set the tail signature from
`getSignature(db, counter)` - the serial `counter` itself, with the lookup
error discarded, so a missing row silently yields an empty tail. -/
def verifyAuditChain (pk : Nat) (store : List Event) (counter : Nat) :
    Option (List Nat) :=
  if (List.range counter).all (fun i => verifyEvent pk store i) then
    some ((getSignature store counter).getD [])
  else
    none

/-- A `Certification` as in `certify.go`: a timestamp, the exported chain
and the error events of the range (the JSON layer is modelled as the
already-decoded value). -/
structure Certification where
  when : Int
  chain : List Event
  errors : List ErrorEvent
deriving DecidableEq

/-- The loop of `VerifyCertification`: verify each entry after the first
against the signature of the entry before it. -/
def verifyAdjacentFrom (pk : Nat) : Event → List Event → Bool
  | _, [] => true
  | prevEv, e :: rest => e.verify pk prevEv.signature && verifyAdjacentFrom pk e rest

/-- `VerifyCertification` from `certify.go`, on an already-decoded document:
when the chain is non-empty and its first entry has serial 0, that entry is
verified against an empty previous signature; every later entry is verified
against the signature of the entry before it; any failure returns
`(none, false)`, success returns the decoded certification. -/
def VerifyCertification (cl : Certification) (pk : Nat) :
    Option Certification × Bool :=
  match cl.chain with
  | [] => (some cl, true)
  | e0 :: rest =>
    if e0.serial == 0 && !(e0.verify pk []) then (none, false)
    else if verifyAdjacentFrom pk e0 rest then (some cl, true)
    else (none, false)

/-- The range normalisation of `Logger.Certify`: `end` is a `uint64`, and
`if end <= 0 { end = l.counter - 1 }` is unsigned arithmetic, modelled with
an explicit wraparound modulo `2 ^ 64`. -/
def certifyEffectiveEnd (counter endSerial : Nat) : Nat :=
  if endSerial ≤ 0 then (counter + (2 ^ 64 - 1)) % 2 ^ 64 else endSerial

/-- `loadEvents` from `db.go`: the committed events whose serial lies in the
inclusive range `[start, end]`, in stored order. -/
def loadEvents (store : List Event) (startSerial endSerial : Nat) : List Event :=
  store.filter (fun ev => startSerial ≤ ev.serial && ev.serial ≤ endSerial)

/-- The chain of the certification document built by `Logger.Certify`. -/
def certifyChain (store : List Event) (counter startSerial endSerial : Nat) :
    List Event :=
  loadEvents store startSerial (certifyEffectiveEnd counter endSerial)

/-- A database table as seen by `checkTable`: the SQL text recorded in
`sqlite_master` and the rows it currently holds. -/
structure Table where
  schemaSQL : List Nat
  rows : List (List Nat)
deriving DecidableEq

/-- `checkTable` from `db.go`: a missing table is created empty; a table
whose recorded SQL text differs from the expected definition is dropped and
recreated empty; a table with the exact expected text is left untouched. -/
def checkTable (existing : Option Table) (tableSQL : List Nat) : Table :=
  match existing with
  | none => ⟨tableSQL, []⟩
  | some t => if t.schemaSQL = tableSQL then t else ⟨tableSQL, []⟩

/-- The event obtained by exchanging the attributes at positions `i` and `j`. -/
def Event.swapAttributes (ev : Event) (i j : Nat) : Event :=
  let ai := ev.attributes.getD i ⟨[], []⟩
  let aj := ev.attributes.getD j ⟨[], []⟩
  { ev with attributes := (ev.attributes.set i aj).set j ai }

/-- An event carrying the signature produced by signing its digest (with the
given previous signature in the signature field) under `sk`. -/
def signedEvent (sk : Nat) (base : Event) (prev : List Nat) : Event :=
  let rs := ecdsaSign sk (Event.digest { base with signature := prev })
  { base with signature := asn1Marshal rs.1 rs.2 }

theorem intDec_intEnc (i : Int) : intDec (intEnc i) = i := by
  cases i with
  | ofNat n =>
    simp [intEnc, intDec, Nat.mul_mod_right, Nat.mul_div_cancel_left]
  | negSucc n =>
    have h1 : (2 * n + 1) % 2 = 1 := by omega
    have h2 : (2 * n + 1) / 2 = n := by omega
    simp [intEnc, intDec, h1, h2]

theorem natBitsAux_eval (fuel : Nat) :
    ∀ n : Nat, n ≤ fuel → Nat.ofDigits 2 (natBitsAux fuel n) = n := by
  induction fuel with
  | zero =>
    intro n hn
    interval_cases n
    simp [natBitsAux]
  | succ fuel ih =>
    intro n hn
    cases n with
    | zero => simp [natBitsAux]
    | succ m =>
      have hdiv : (m + 1) / 2 ≤ fuel := by
        have := Nat.div_lt_self (Nat.succ_pos m) (by norm_num : 1 < 2)
        omega
      simp only [natBitsAux, Nat.ofDigits_cons, ih _ hdiv]
      omega

theorem natBits_eval (n : Nat) : Nat.ofDigits 2 (natBits n) = n :=
  natBitsAux_eval n n le_rfl

theorem natBits_inj {a b : Nat} (h : natBits a = natBits b) : a = b := by
  have ha := natBits_eval a
  rw [h, natBits_eval] at ha
  exact ha.symm

theorem natBitsAux_lt_two (fuel : Nat) :
    ∀ n d : Nat, d ∈ natBitsAux fuel n → d < 2 := by
  induction fuel with
  | zero =>
    intro n d hd
    cases n <;> simp [natBitsAux] at hd
  | succ fuel ih =>
    intro n d hd
    cases n with
    | zero => simp [natBitsAux] at hd
    | succ m =>
      simp only [natBitsAux, List.mem_cons] at hd
      rcases hd with h | h
      · omega
      · exact ih _ _ h

theorem two_not_mem_natBits (n : Nat) : 2 ∉ natBits n := by
  intro h
  have := natBitsAux_lt_two n n 2 h
  omega

theorem byteDigits_nil : byteDigits [] = [] := rfl

theorem byteDigits_cons (b : Nat) (bs : List Nat) :
    byteDigits (b :: bs) = natBits b ++ 2 :: byteDigits bs := by
  simp [byteDigits]

theorem byteDigits_ne_nil (b : Nat) (bs : List Nat) :
    byteDigits (b :: bs) ≠ [] := by
  simp [byteDigits_cons]

theorem append_sep_inj :
    ∀ (xs₁ : List Nat) {ys₁ xs₂ ys₂ : List Nat}, 2 ∉ xs₁ → 2 ∉ xs₂ →
      xs₁ ++ 2 :: ys₁ = xs₂ ++ 2 :: ys₂ → xs₁ = xs₂ ∧ ys₁ = ys₂ := by
  intro xs₁
  induction xs₁ with
  | nil =>
    intro ys₁ xs₂ ys₂ _ h2 h
    cases xs₂ with
    | nil => simpa using h
    | cons a t =>
      simp only [List.nil_append, List.cons_append, List.cons.injEq] at h
      exact absurd (h.1 ▸ List.mem_cons_self a t) h2
  | cons a t ih =>
    intro ys₁ xs₂ ys₂ h1 h2 h
    cases xs₂ with
    | nil =>
      simp only [List.nil_append, List.cons_append, List.cons.injEq] at h
      exact absurd (h.1.symm ▸ List.mem_cons_self a t) h1
    | cons b u =>
      simp only [List.cons_append, List.cons.injEq] at h
      have ht := ih (fun hm => h1 (List.mem_cons_of_mem a hm))
        (fun hm => h2 (List.mem_cons_of_mem b hm)) h.2
      exact ⟨by rw [h.1, ht.1], ht.2⟩

theorem byteDigits_inj :
    ∀ (bs₁ bs₂ : List Nat), byteDigits bs₁ = byteDigits bs₂ → bs₁ = bs₂ := by
  intro bs₁
  induction bs₁ with
  | nil =>
    intro bs₂ h
    cases bs₂ with
    | nil => rfl
    | cons b t => exact absurd h.symm (byteDigits_ne_nil b t)
  | cons a t ih =>
    intro bs₂ h
    cases bs₂ with
    | nil => exact absurd h (byteDigits_ne_nil a t)
    | cons b u =>
      rw [byteDigits_cons, byteDigits_cons] at h
      have hsep := append_sep_inj (natBits a) (two_not_mem_natBits a)
        (two_not_mem_natBits b) h
      rw [natBits_inj hsep.1, ih u hsep.2]

theorem byteDigits_lt_three (bs : List Nat) :
    ∀ d ∈ byteDigits bs, d < 3 := by
  intro d hd
  simp only [byteDigits, List.mem_flatten, List.mem_map] at hd
  obtain ⟨l, ⟨b, _, rfl⟩, hdl⟩ := hd
  rcases List.mem_append.mp hdl with h | h
  · have := natBitsAux_lt_two b b d h
    omega
  · simp at h
    omega

theorem byteDigits_getLast?_eq (bs : List Nat) (h : bs ≠ []) :
    (byteDigits bs).getLast? = some 2 := by
  induction bs with
  | nil => exact absurd rfl h
  | cons b t ih =>
    rw [byteDigits_cons]
    cases t with
    | nil =>
      rw [byteDigits_nil]
      exact List.getLast?_append_of_ne_nil (natBits b) (by simp)
    | cons c u =>
      rw [List.getLast?_append_of_ne_nil (natBits b) (by simp)]
      have : (2 :: byteDigits (c :: u)) = [2] ++ byteDigits (c :: u) := rfl
      rw [this, List.getLast?_append_of_ne_nil [2] (byteDigits_ne_nil c u)]
      exact ih (by simp)

theorem encodeBytes_digits (bs : List Nat) :
    Nat.digits 3 (encodeBytes bs) = byteDigits bs := by
  refine Nat.digits_ofDigits 3 (by norm_num) (byteDigits bs)
    (byteDigits_lt_three bs) ?_
  intro hne
  have hbs : bs ≠ [] := by
    intro h
    rw [h, byteDigits_nil] at hne
    exact hne rfl
  have h2 := byteDigits_getLast?_eq bs hbs
  rw [List.getLast?_eq_getLast_of_ne_nil hne] at h2
  simp only [Option.some.injEq] at h2
  rw [h2]
  norm_num

theorem encodeBytes_inj {bs₁ bs₂ : List Nat}
    (h : encodeBytes bs₁ = encodeBytes bs₂) : bs₁ = bs₂ := by
  have h1 := encodeBytes_digits bs₁
  rw [h, encodeBytes_digits bs₂] at h1
  exact byteDigits_inj bs₁ bs₂ h1.symm

theorem tailSigFrom_cons (prev : List Nat) (e : Event) (es : List Event) :
    tailSigFrom prev (e :: es) = tailSigFrom e.signature es := by
  cases es with
  | nil => rfl
  | cons b t =>
    unfold tailSigFrom
    rw [List.getLast?_cons_cons]
    cases h : (b :: t).getLast? with
    | none => simp at h
    | some x => rfl

theorem tailSigFrom_append_one (prev : List Nat) (es : List Event) (e : Event) :
    tailSigFrom prev (es ++ [e]) = e.signature := by
  unfold tailSigFrom
  rw [List.getLast?_append_of_ne_nil es (by simp)]
  rfl

theorem chainOk_append_one (pk : Nat) (es : List Event) :
    ∀ (prev : List Nat) (e : Event),
      chainOk pk prev (es ++ [e]) =
        (chainOk pk prev es && e.verify pk (tailSigFrom prev es)) := by
  induction es with
  | nil => intro prev e; simp [chainOk, tailSigFrom]
  | cons e0 rest ih =>
    intro prev e
    simp only [List.cons_append, chainOk, tailSigFrom_cons, List.append_eq]
    rw [ih e0.signature e, Bool.and_assoc]

/-- Signing then verifying against the same previous signature succeeds in
the ideal model. -/
theorem verify_signedEvent (sk : Nat) (base : Event) (prev : List Nat) :
    (signedEvent sk base prev).verify (pubOf sk) prev = true := by
  obtain ⟨s, w, r, l, a, e, ats, sg⟩ := base
  simp [signedEvent, Event.verify, asn1Marshal, asn1Unmarshal, intDec_intEnc,
    ecdsaVerify, ecdsaSign, pubOf]

/-- The event committed by a successful worker step from state `st`: the
stamped draft, signed against the current tail signature. -/
def committedEvent (sk : Nat) (recv : Int) (draft : Event) (st : LoggerState) :
    Event :=
  signedEvent sk { draft with
                    received := recv
                    serial := st.counter
                    signature := [] } st.lastSignature

/-- The error event recorded by a failing worker step from state `st`. -/
def errorEventOf (tag : List Nat) (recv errWhen : Int) (draft : Event)
    (reason : List Nat) (st : LoggerState) : ErrorEvent :=
  ⟨errWhen, tag ++ reason, { draft with
                              received := recv
                              serial := st.counter
                              signature := [] }⟩

theorem processEvent_closed {sk : Nat} {signOk marshalOk : Bool}
    {recv errWhen : Int} {draft : Event} {hasWait : Bool} {reason : List Nat}
    {st : LoggerState} (hdb : st.dbOpen = false) :
    processEvent sk signOk marshalOk recv errWhen draft hasWait reason st
      = (st, []) := by
  simp [processEvent, hdb]

theorem processEvent_signFail {sk : Nat} {marshalOk : Bool}
    {recv errWhen : Int} {draft : Event} {hasWait : Bool} {reason : List Nat}
    {st : LoggerState} (hdb : st.dbOpen = true) :
    processEvent sk false marshalOk recv errWhen draft hasWait reason st
      = ({ st with errors :=
            st.errors ++ [errorEventOf sigFailTag recv errWhen draft reason st] },
         Action.recordError (errorEventOf sigFailTag recv errWhen draft reason st)
           :: if hasWait then [Action.release] else []) := by
  simp [processEvent, hdb, errorEventOf]

theorem processEvent_marshalFail {sk : Nat}
    {recv errWhen : Int} {draft : Event} {hasWait : Bool} {reason : List Nat}
    {st : LoggerState} (hdb : st.dbOpen = true) :
    processEvent sk true false recv errWhen draft hasWait reason st
      = ({ st with errors :=
            st.errors ++
              [errorEventOf marshalSigFailTag recv errWhen draft reason st] },
         Action.recordError
             (errorEventOf marshalSigFailTag recv errWhen draft reason st)
           :: if hasWait then [Action.release] else []) := by
  simp [processEvent, hdb, errorEventOf]

theorem processEvent_success {sk : Nat}
    {recv errWhen : Int} {draft : Event} {hasWait : Bool} {reason : List Nat}
    {st : LoggerState} (hdb : st.dbOpen = true) :
    processEvent sk true true recv errWhen draft hasWait reason st
      = ({ st with
            counter := st.counter + 1
            lastSignature := (committedEvent sk recv draft st).signature
            events := st.events ++ [committedEvent sk recv draft st] },
         Action.commit (committedEvent sk recv draft st)
           :: if hasWait then [Action.release] else []) := by
  simp [processEvent, hdb, committedEvent, signedEvent]

/-- The state invariant maintained by the worker: the committed chain
verifies link by link from the empty signature, the in-memory tail signature
is the signature of the last committed event, the counter equals the number
of committed events, and the committed serials are dense `0 .. N-1`. -/
def StateInv (sk : Nat) (st : LoggerState) : Prop :=
  chainOk (pubOf sk) [] st.events = true ∧
  st.lastSignature = tailSigFrom [] st.events ∧
  st.counter = st.events.length ∧
  st.events.map Event.serial = List.range st.events.length

theorem verify_committedEvent (sk : Nat) (recv : Int) (draft : Event)
    (st : LoggerState) :
    (committedEvent sk recv draft st).verify (pubOf sk) st.lastSignature
      = true :=
  verify_signedEvent sk _ st.lastSignature

theorem committedEvent_serial (sk : Nat) (recv : Int) (draft : Event)
    (st : LoggerState) : (committedEvent sk recv draft st).serial = st.counter := by
  obtain ⟨s, w, r, l, a, e, ats, sg⟩ := draft
  simp [committedEvent, signedEvent]

theorem reachable_inv (sk : Nat) (st : LoggerState) (h : Reachable sk st) :
    StateInv sk st := by
  induction h with
  | init => exact ⟨rfl, rfl, rfl, rfl⟩
  | stop _ ih => exact ih
  | @step signOk marshalOk recv errWhen draft hasWait reason st0 _ ih =>
    obtain ⟨ih1, ih2, ih3, ih4⟩ := ih
    by_cases hdb : st0.dbOpen = false
    · rw [processEvent_closed hdb]
      exact ⟨ih1, ih2, ih3, ih4⟩
    · rw [Bool.not_eq_false] at hdb
      cases signOk with
      | false =>
        rw [processEvent_signFail hdb]
        exact ⟨ih1, ih2, ih3, ih4⟩
      | true =>
        cases marshalOk with
        | false =>
          rw [processEvent_marshalFail hdb]
          exact ⟨ih1, ih2, ih3, ih4⟩
        | true =>
          rw [processEvent_success hdb]
          refine ⟨?_, ?_, ?_, ?_⟩
          · show chainOk (pubOf sk) []
              (st0.events ++ [committedEvent sk recv draft st0]) = true
            rw [chainOk_append_one, ih1, ← ih2, Bool.true_and]
            exact verify_committedEvent sk recv draft st0
          · show (committedEvent sk recv draft st0).signature
              = tailSigFrom [] (st0.events ++ [committedEvent sk recv draft st0])
            rw [tailSigFrom_append_one]
          · show st0.counter + 1
              = (st0.events ++ [committedEvent sk recv draft st0]).length
            simp [ih3]
          · show (st0.events ++ [committedEvent sk recv draft st0]).map
                Event.serial
              = List.range
                  (st0.events ++ [committedEvent sk recv draft st0]).length
            simp only [List.map_append, List.length_append, List.map_cons,
              List.map_nil, List.length_cons, List.length_nil]
            rw [ih4, committedEvent_serial, ih3]
            simp [List.range_succ]

/-- C1: for every event, the byte sequence fed to SHA-256 (and hence the
digest used by signing and verification) is exactly: serial, when and
received as signed 64-bit big-endian integers, then the bytes of level,
actor and event, then each attribute's name followed by its value in
declared order, then the raw bytes held in the signature field (an empty
slice contributing no bytes). -/
theorem digest_canonical_byte_order :
    ∀ ev : Event, ev.digestInput = specCanonicalBytes ev ∧
      Event.digest ev = sha256 (specCanonicalBytes ev) := by
  intro ev
  have h : ev.digestInput = specCanonicalBytes ev := by
    unfold Event.digestInput specCanonicalBytes
    by_cases hs : ev.signature.length ≠ 0
    · simp [hs]
    · push_neg at hs
      rw [List.length_eq_zero] at hs
      simp [hs]
  exact ⟨h, by simp [Event.digest, h]⟩

theorem chainOk_getD (pk : Nat) :
    ∀ (es : List Event) (prev : List Nat), chainOk pk prev es = true →
      (∀ i, i + 1 < es.length →
        (es.getD (i + 1) defaultEvent).verify pk
          ((es.getD i defaultEvent).signature) = true) ∧
      (0 < es.length → (es.getD 0 defaultEvent).verify pk prev = true) := by
  intro es
  induction es with
  | nil =>
    intro prev _
    constructor
    · intro i hi
      simp at hi
    · intro h
      simp at h
  | cons e rest ih =>
    intro prev h
    have h1 : e.verify pk prev = true ∧ chainOk pk e.signature rest = true := by
      simpa [chainOk, Bool.and_eq_true] using h
    refine ⟨?_, fun _ => h1.1⟩
    intro i hi
    cases i with
    | zero =>
      cases rest with
      | nil => simp at hi
      | cons e1 r1 =>
        have := (ih e.signature h1.2).2 (by simp)
        simpa using this
    | succ k =>
      have := (ih e.signature h1.2).1 k (by simpa using hi)
      simpa using this

/-- C2: in every logger state reachable by worker steps, each committed
event verifies against the signature of the event before it, and the first
committed event verifies against the empty previous signature. -/
theorem committed_chain_pairwise_verified (sk : Nat) (st : LoggerState)
    (h : Reachable sk st) :
    (∀ i, i + 1 < st.events.length →
      (st.events.getD (i + 1) defaultEvent).verify (pubOf sk)
        ((st.events.getD i defaultEvent).signature) = true) ∧
    (0 < st.events.length →
      (st.events.getD 0 defaultEvent).verify (pubOf sk) [] = true) :=
  chainOk_getD (pubOf sk) st.events [] (reachable_inv sk st h).1

/-- Witness for C2 at a concrete one-step run. -/
theorem committed_chain_pairwise_verified_witness :
    ((processEvent 0 true true 0 0 defaultEvent false [] initState).1.events.getD 0
        defaultEvent).verify (pubOf 0) [] = true :=
  (committed_chain_pairwise_verified 0 _
      (Reachable.step true true 0 0 defaultEvent false [] Reachable.init)).2
    (by decide)

/-- C3: the chain verifier loop accepts the store built by one successful
commit, but the tail signature it reconstructs is the one looked up at
serial `counter` - a row that does not exist - with the lookup error
discarded, so the reloaded tail signature is empty while the signature
stored at serial `counter - 1` is not; the spec requires the stored tail to
be reproduced byte for byte. -/
theorem reload_tail_signature_dropped :
    verifyAuditChain (pubOf 0)
        (processEvent 0 true true 0 0 defaultEvent false [] initState).1.events
        (processEvent 0 true true 0 0 defaultEvent false [] initState).1.counter
      = some [] ∧
    getSignature
        (processEvent 0 true true 0 0 defaultEvent false [] initState).1.events 0
      = some
        (processEvent 0 true true 0 0 defaultEvent false [] initState).1.lastSignature ∧
    (processEvent 0 true true 0 0 defaultEvent false [] initState).1.lastSignature
      ≠ [] := by
  decide

/-- C4: when signing (or signature encoding) fails, the worker step leaves
the committed events, the counter and the tail signature unchanged, appends
exactly one error event whose message starts with the failure stage tag and
which carries the reserved serial with an empty signature, and the next
successful step commits an event reusing exactly that serial. -/
theorem sign_failure_records_error_and_releases_serial
    (sk : Nat) (signOk marshalOk : Bool) (recv errWhen : Int) (draft : Event)
    (hasWait : Bool) (reason : List Nat) (st : LoggerState)
    (hdb : st.dbOpen = true) (hfail : signOk = false ∨ marshalOk = false) :
    (processEvent sk signOk marshalOk recv errWhen draft hasWait reason st).1.events
      = st.events ∧
    (processEvent sk signOk marshalOk recv errWhen draft hasWait reason st).1.counter
      = st.counter ∧
    (processEvent sk signOk marshalOk recv errWhen draft hasWait reason st).1.lastSignature
      = st.lastSignature ∧
    (∃ errEv : ErrorEvent,
      (processEvent sk signOk marshalOk recv errWhen draft hasWait reason st).1.errors
        = st.errors ++ [errEv] ∧
      errEv.message
        = (if signOk = false then sigFailTag else marshalSigFailTag) ++ reason ∧
      errEv.event.serial = st.counter ∧
      errEv.event.signature = []) ∧
    (∀ (recv2 errWhen2 : Int) (draft2 : Event) (hasWait2 : Bool)
        (reason2 : List Nat),
      ∃ ev : Event,
        (processEvent sk true true recv2 errWhen2 draft2 hasWait2 reason2
            (processEvent sk signOk marshalOk recv errWhen draft hasWait reason st).1).1.events
          = st.events ++ [ev] ∧ ev.serial = st.counter) ∧
    (Reachable sk st →
      (processEvent sk signOk marshalOk recv errWhen draft hasWait reason st).1.events.map
          Event.serial
        = List.range
            (processEvent sk signOk marshalOk recv errWhen draft hasWait reason st).1.events.length) := by
  have next : ∀ st' : LoggerState, st'.dbOpen = true →
      ∀ (recv2 errWhen2 : Int) (draft2 : Event) (hasWait2 : Bool)
        (reason2 : List Nat),
      ∃ ev : Event,
        (processEvent sk true true recv2 errWhen2 draft2 hasWait2 reason2
            st').1.events = st'.events ++ [ev] ∧ ev.serial = st'.counter := by
    intro st' hdb' recv2 errWhen2 draft2 hasWait2 reason2
    rw [processEvent_success hdb']
    exact ⟨committedEvent sk recv2 draft2 st', rfl,
      committedEvent_serial _ _ _ _⟩
  rcases hfail with hf | hf
  · subst hf
    rw [processEvent_signFail hdb]
    refine ⟨rfl, rfl, rfl,
      ⟨errorEventOf sigFailTag recv errWhen draft reason st, rfl, ?_, ?_, ?_⟩, ?_, ?_⟩
    · simp [errorEventOf]
    · simp [errorEventOf]
    · simp [errorEventOf]
    · exact next _ hdb
    · intro hr
      exact (reachable_inv sk st hr).2.2.2
  · cases signOk with
    | false =>
      rw [processEvent_signFail hdb]
      refine ⟨rfl, rfl, rfl,
        ⟨errorEventOf sigFailTag recv errWhen draft reason st, rfl, ?_, ?_, ?_⟩, ?_, ?_⟩
      · simp [errorEventOf]
      · simp [errorEventOf]
      · simp [errorEventOf]
      · exact next _ hdb
      · intro hr
        exact (reachable_inv sk st hr).2.2.2
    | true =>
      subst hf
      rw [processEvent_marshalFail hdb]
      refine ⟨rfl, rfl, rfl,
        ⟨errorEventOf marshalSigFailTag recv errWhen draft reason st, rfl, ?_, ?_, ?_⟩, ?_, ?_⟩
      · simp [errorEventOf]
      · simp [errorEventOf]
      · simp [errorEventOf]
      · exact next _ hdb
      · intro hr
        exact (reachable_inv sk st hr).2.2.2

/-- Witness for C4 at a concrete failing step from the fresh state. -/
theorem sign_failure_records_error_and_releases_serial_witness :
    (processEvent 0 false true 0 0 defaultEvent false [7] initState).1.events = [] ∧
    (processEvent 0 false true 0 0 defaultEvent false [7] initState).1.counter = 0 :=
  have h := sign_failure_records_error_and_releases_serial 0 false true 0 0
    defaultEvent false [7] initState rfl (Or.inl rfl)
  ⟨h.1.trans rfl, h.2.1.trans rfl⟩

/-- C5 (code bug): a synchronous draft processed after `Stop` has removed
the store handle is discarded with no release of its completion signal (the
early return happens before the deferred close is registered), while on the
normal path the signal is released exactly once, strictly after the
commit-or-error action. -/
theorem shutdown_race_waiter_never_released :
    (processEvent 0 true true 0 0 defaultEvent true []
        ⟨0, [], [], [], false⟩).2 = [] ∧
    ((processEvent 0 true true 0 0 defaultEvent true [] initState).2.filter
        (fun a => decide (a = Action.release))).length = 1 ∧
    (processEvent 0 true true 0 0 defaultEvent true [] initState).2.getLast?
      = some Action.release ∧
    ((processEvent 0 false true 0 0 defaultEvent true [] initState).2.filter
        (fun a => decide (a = Action.release))).length = 1 ∧
    (processEvent 0 false true 0 0 defaultEvent true [] initState).2.getLast?
      = some Action.release := by
  decide

/-- C6: the certification verifier returns either the decoded document with
success or `(none, false)`; it succeeds exactly when the first entry, if its
serial is 0, verifies against the empty previous signature and every later
entry verifies against the signature of the entry before it. A chain whose
first serial is not 0 is not checked against the empty signature, so the
range need not start at serial 0. -/
theorem verifyCertification_first_and_adjacent (cl : Certification) (pk : Nat) :
    (VerifyCertification cl pk = (some cl, true) ∨
     VerifyCertification cl pk = (none, false)) ∧
    (VerifyCertification cl pk = (some cl, true) ↔
      ∀ e0 ∈ cl.chain.head?,
        (e0.serial = 0 → e0.verify pk [] = true) ∧
        verifyAdjacentFrom pk e0 cl.chain.tail = true) := by
  cases hc : cl.chain with
  | nil => simp [VerifyCertification, hc]
  | cons e0 rest =>
    by_cases h0 : e0.serial = 0 <;> by_cases hv : e0.verify pk [] = true <;>
      by_cases ha : verifyAdjacentFrom pk e0 rest = true <;>
      simp [VerifyCertification, hc, h0, hv, ha]

/-- Witness for C6 at the empty chain. -/
theorem verifyCertification_first_and_adjacent_witness :
    VerifyCertification ⟨0, [], []⟩ 0 = (some ⟨0, [], []⟩, true) :=
  (verifyCertification_first_and_adjacent ⟨0, [], []⟩ 0).2.mpr (by
    intro e0 he
    simp at he)

/-- C8: the certification verifier reads serial values only through the
test `first entry's serial = 0`; whenever the adjacent-signature checks
hold (and the first-entry check holds if that serial is 0) it succeeds,
with no constraint relating the serials to each other. -/
theorem verifyCertification_ignores_serial_values (cl : Certification)
    (pk : Nat)
    (h : match cl.chain with
         | [] => True
         | e0 :: rest =>
           (e0.serial = 0 → e0.verify pk [] = true) ∧
           verifyAdjacentFrom pk e0 rest = true) :
    VerifyCertification cl pk = (some cl, true) := by
  cases hc : cl.chain with
  | nil => simp [VerifyCertification, hc]
  | cons e0 rest =>
    rw [hc] at h
    obtain ⟨h1, h2⟩ := h
    by_cases h0 : e0.serial = 0
    · simp [VerifyCertification, hc, h0, h1 h0, h2]
    · simp [VerifyCertification, hc, h0, h2]

/-- First entry of a certification whose serial is 5 and whose signature is
arbitrary bytes; the exported range does not start at serial 0, so the
verifier never checks this entry. -/
def e8a : Event := { defaultEvent with serial := 5, signature := [0, 0] }

/-- Second entry: duplicate serial 5, correctly chained to the first. -/
def e8b : Event := signedEvent 0 { defaultEvent with serial := 5 } e8a.signature

/-- Third entry: serial 3 (non-ascending), correctly chained to the second. -/
def e8c : Event := signedEvent 0 { defaultEvent with serial := 3 } e8b.signature

/-- A certification whose serials `5, 5, 3` are duplicated, non-ascending
and non-contiguous, yet whose adjacent signatures verify. -/
def cert8 : Certification := ⟨0, [e8a, e8b, e8c], []⟩

set_option maxRecDepth 16384 in
/-- Witness for C8: the verifier accepts `cert8` despite its serials. -/
theorem verifyCertification_ignores_serial_values_witness :
    VerifyCertification cert8 (pubOf 0) = (some cert8, true) :=
  verifyCertification_ignores_serial_values cert8 (pubOf 0)
    ⟨by decide, by decide⟩

/-- An event with two distinct attributes `("a", "b")` and `("ab", "")`
whose concatenated name-value byte streams coincide, signed from the empty
previous signature. -/
def e7 : Event :=
  signedEvent 0 { defaultEvent with attributes := [⟨[97], [98]⟩, ⟨[97, 98], []⟩] } []

/-- C7 counterexample: swapping the two (distinct) attributes of `e7` leaves
the canonical digest byte stream unchanged, so the swapped event still
verifies, contradicting the claim that any swap invalidates the signature. -/
theorem swap_preserving_bytes_still_verifies :
    e7.attributes.length = 2 ∧
    e7.attributes.getD 0 ⟨[], []⟩ ≠ e7.attributes.getD 1 ⟨[], []⟩ ∧
    e7.verify (pubOf 0) [] = true ∧
    (e7.swapAttributes 0 1).verify (pubOf 0) [] = true := by
  decide

/-- C7 amended: swapping two attributes invalidates the signature whenever
the swap changes the canonical digest byte sequence (which an attribute swap
can fail to do only when the concatenated attribute bytes coincide). -/
theorem swap_changing_digest_invalidates (ev : Event) (pk : Nat)
    (prev : List Nat) (i j : Nat)
    (hv : ev.verify pk prev = true)
    (hne : Event.digestInput { ev.swapAttributes i j with signature := prev }
         ≠ Event.digestInput { ev with signature := prev }) :
    (ev.swapAttributes i j).verify pk prev = false := by
  have hsig : (ev.swapAttributes i j).signature = ev.signature := rfl
  simp only [Event.verify, hsig] at hv ⊢
  cases hu : asn1Unmarshal ev.signature with
  | none => simp [hu]
  | some rs =>
    obtain ⟨r, s⟩ := rs
    rw [hu] at hv
    simp only [hu]
    simp only [ecdsaVerify, Bool.and_eq_true, beq_iff_eq] at hv
    obtain ⟨hr, hs⟩ := hv
    have hencne : Int.ofNat (encodeBytes
          (Event.digest { ev with signature := prev }))
        ≠ Int.ofNat (encodeBytes
          (Event.digest { ev.swapAttributes i j with signature := prev })) := by
      intro hh
      exact hne (encodeBytes_inj (Int.ofNat.inj hh)).symm
    simp only [ecdsaVerify]
    rw [hr]
    rw [beq_eq_false_iff_ne.mpr hencne, Bool.false_and]

/-- An event with attributes `("a", "")` and `("b", "")`, signed from the
empty previous signature; swapping them changes the digest bytes. -/
def e7w : Event :=
  signedEvent 0 { defaultEvent with attributes := [⟨[97], []⟩, ⟨[98], []⟩] } []

/-- Witness for the amended C7 at a concrete event. -/
theorem swap_changing_digest_invalidates_witness :
    (e7w.swapAttributes 0 1).verify (pubOf 0) [] = false :=
  swap_changing_digest_invalidates e7w (pubOf 0) [] 0 1 (by decide) (by decide)

/-- C9: the range end of `Certify` is unsigned, so the normalisation test
`end <= 0` holds only for `end = 0`, and with `end = 0` and a zero counter
the effective end wraps to `2 ^ 64 - 1` instead of failing; the document
chain is then whatever events fall in `[start, 2 ^ 64 - 1]`. -/
theorem certify_zero_end_wraps_to_max :
    (∀ endSerial : Nat, endSerial ≤ 0 ↔ endSerial = 0) ∧
    certifyEffectiveEnd 0 0 = 2 ^ 64 - 1 ∧
    ∀ (store : List Event) (startSerial : Nat),
      certifyChain store 0 startSerial 0 =
        store.filter
          (fun ev => startSerial ≤ ev.serial && ev.serial ≤ 2 ^ 64 - 1) := by
  have hmod : (0 + (2 ^ 64 - 1)) % 2 ^ 64 = 2 ^ 64 - 1 := by
    rw [Nat.zero_add]
    exact Nat.mod_eq_of_lt (by norm_num)
  refine ⟨fun e => Nat.le_zero, ?_, ?_⟩
  · unfold certifyEffectiveEnd
    rw [if_pos (Nat.le_refl 0), hmod]
  · intro store startSerial
    unfold certifyChain loadEvents certifyEffectiveEnd
    rw [if_pos (Nat.le_refl 0), hmod]

/-- Witness for C9 at the concrete corner input. -/
theorem certify_zero_end_wraps_to_max_witness :
    certifyEffectiveEnd 0 0 = 2 ^ 64 - 1 ∧ ((0 : Nat) ≤ 0 ↔ (0 : Nat) = 0) :=
  ⟨certify_zero_end_wraps_to_max.2.1, certify_zero_end_wraps_to_max.1 0⟩

/-- C10: table setup keeps a stored table (and hence its rows) exactly when
its recorded SQL text equals the expected definition byte for byte; any
difference drops the table and recreates it empty, deleting its rows, and a
missing table is created empty. -/
theorem checkTable_preserves_only_matching_schema (t : Table) (sql : List Nat) :
    (t.schemaSQL = sql → checkTable (some t) sql = t) ∧
    (t.schemaSQL ≠ sql → checkTable (some t) sql = ⟨sql, []⟩) ∧
    checkTable none sql = ⟨sql, []⟩ := by
  refine ⟨?_, ?_, rfl⟩ <;> intro h <;> simp [checkTable, h]

/-- Witness for C10: a mismatched table is emptied, a matching one kept. -/
theorem checkTable_preserves_only_matching_schema_witness :
    checkTable (some ⟨[1], [[9]]⟩) [2] = ⟨[2], []⟩ ∧
    checkTable (some ⟨[1], [[9]]⟩) [1] = ⟨[1], [[9]]⟩ :=
  ⟨(checkTable_preserves_only_matching_schema ⟨[1], [[9]]⟩ [2]).2.1 (by decide),
   (checkTable_preserves_only_matching_schema ⟨[1], [[9]]⟩ [1]).1 rfl⟩

end Auditlog
